import Mathlib

/-!
Verification development for the codec2_flutter repository.

The repository itself contains two translation units: an iOS amalgamation file
that includes the upstream codec sources (which are not part of this tree), and
an Android shim returning the address of codec2_create.  The codec pipeline
(bit packer, quantiser, LPC/LSP analysis, encode/decode) is therefore modelled
from the specification; the Android shim is embedded from its source.
-/

namespace Codec2

/-! ## Bit packer / unpacker -/

/-- Modelled from the spec: serialisation of one quantized field of width `w`
(pack.c is included by the amalgamation but absent from this tree).  Bits are
emitted least-significant first. -/
def fieldBits : Nat → Nat → List Bool
  | 0, _ => []
  | w + 1, v => decide (v % 2 = 1) :: fieldBits w (v / 2)

/-- Modelled from the spec: reassembling a field value from its bits. -/
def fieldVal : List Bool → Nat
  | [] => 0
  | b :: bs => (cond b 1 0) + 2 * fieldVal bs

/-- Modelled from the spec: the bit packer serialises the quantized fields in
order, each with its allocated width from the bit-allocation table. -/
def pack : List Nat → List Nat → List Bool
  | w :: ws, v :: vs => fieldBits w v ++ pack ws vs
  | _, _ => []

/-- Modelled from the spec: the unpacker reads each allocated field back and
signals failure (decode error) on truncated or oversized input rather than
reading past the declared frame boundary. -/
def unpack : List Nat → List Bool → Option (List Nat)
  | [], [] => some []
  | [], _ :: _ => none
  | w :: ws, bits =>
      if w ≤ bits.length then
        match unpack ws (bits.drop w) with
        | some vs => some (fieldVal (bits.take w) :: vs)
        | none => none
      else none

/-- A parameter tuple is valid for an allocation table when it has one value
per field and each value fits in its allocated width. -/
def validParams : List Nat → List Nat → Bool
  | [], [] => true
  | w :: ws, v :: vs => decide (v < 2 ^ w) && validParams ws vs
  | _, _ => false

theorem fieldBits_length (w v : Nat) : (fieldBits w v).length = w := by
  induction w generalizing v with
  | zero => rfl
  | succ w ih => simp [fieldBits, ih]

theorem fieldVal_fieldBits (w v : Nat) (h : v < 2 ^ w) :
    fieldVal (fieldBits w v) = v := by
  induction w generalizing v with
  | zero =>
      have : v = 0 := by simpa using Nat.lt_one_iff.mp (by simpa using h)
      simp [this, fieldBits, fieldVal]
  | succ w ih =>
      have hpow : 2 ^ (w + 1) = 2 * 2 ^ w := by ring
      have hdiv : v / 2 < 2 ^ w := by omega
      rcases Nat.mod_two_eq_zero_or_one v with h2 | h2 <;>
        simp [fieldBits, fieldVal, h2, ih _ hdiv] <;> omega

theorem unpack_pack (ws : List Nat) :
    ∀ vs : List Nat, validParams ws vs = true → unpack ws (pack ws vs) = some vs := by
  induction ws with
  | nil =>
      intro vs hv
      cases vs with
      | nil => rfl
      | cons v vs => simp [validParams] at hv
  | cons w ws ih =>
      intro vs hv
      cases vs with
      | nil => simp [validParams] at hv
      | cons v vs =>
          simp only [validParams, Bool.and_eq_true, decide_eq_true_eq] at hv
          have hlen : (fieldBits w v ++ pack ws vs).length = w + (pack ws vs).length := by
            simp [fieldBits_length]
          have htake : (fieldBits w v ++ pack ws vs).take w = fieldBits w v :=
            List.take_left' (fieldBits_length w v)
          have hdrop : (fieldBits w v ++ pack ws vs).drop w = pack ws vs :=
            List.drop_left' (fieldBits_length w v)
          simp only [pack, unpack, hlen, Nat.le_add_right, if_pos, htake, hdrop,
            ih vs hv.2, fieldVal_fieldBits w v hv.1]

/-- Unpacking succeeds only on input of exactly the allocated total length. -/
theorem unpack_some_length (ws : List Nat) :
    ∀ (bits : List Bool) (vs : List Nat), unpack ws bits = some vs →
      bits.length = ws.sum := by
  induction ws with
  | nil =>
      intro bits vs h
      cases bits with
      | nil => simp
      | cons b bs => simp [unpack] at h
  | cons w ws ih =>
      intro bits vs h
      simp only [unpack] at h
      by_cases hw : w ≤ bits.length
      · rw [if_pos hw] at h
        cases hu : unpack ws (bits.drop w) with
        | none => rw [hu] at h; exact absurd h (by simp)
        | some vs' =>
            have := ih (bits.drop w) vs' hu
            simp only [List.length_drop] at this
            simp only [List.sum_cons]
            omega
      · rw [if_neg hw] at h
        exact absurd h (by simp)

/-- Unpacking returns one value per allocated field. -/
theorem unpack_some_count (ws : List Nat) :
    ∀ (bits : List Bool) (vs : List Nat), unpack ws bits = some vs →
      vs.length = ws.length := by
  induction ws with
  | nil =>
      intro bits vs h
      cases bits with
      | nil => simp [unpack] at h; simp [← h]
      | cons b bs => simp [unpack] at h
  | cons w ws ih =>
      intro bits vs h
      simp only [unpack] at h
      by_cases hw : w ≤ bits.length
      · rw [if_pos hw] at h
        cases hu : unpack ws (bits.drop w) with
        | none => rw [hu] at h; exact absurd h (by simp)
        | some vs' =>
            rw [hu] at h
            have := ih (bits.drop w) vs' hu
            cases vs with
            | nil => exact absurd h (by simp)
            | cons v vtl =>
                have hv : vtl = vs' := by
                  have := Option.some.inj h
                  exact (List.cons.inj this.symm).2
                simp [hv, this]
      · rw [if_neg hw] at h
        exact absurd h (by simp)

/-! ## Quantiser -/

/-- Modelled from the spec: coefficients of out-of-range input are clamped
into the quantiser range rather than rejected (quantise.c is included by the
amalgamation but absent from this tree). -/
def clampQ (lo hi x : ℚ) : ℚ := max lo (min hi x)

/-- Clamp every coefficient of an input vector into the quantiser range. -/
def clampVec (lo hi : ℚ) (v : List ℚ) : List ℚ := v.map (clampQ lo hi)

/-- Modelled from the spec: the squared-error distance metric of the
minimum-mean-squared-error codebook search. -/
def sqDist (a b : List ℚ) : ℚ := (List.zipWith (fun x y => (x - y) ^ 2) a b).sum

/-- Linear codebook search keeping the best index and distance so far. -/
def quantiseAux (t : List ℚ) : List (List ℚ) → Nat → Nat × ℚ → Nat × ℚ
  | [], _, best => best
  | e :: es, i, best =>
      let d := sqDist t e
      quantiseAux t es (i + 1) (if d < best.2 then (i, d) else best)

/-- Modelled from the spec: the quantiser clamps its input into range and
returns the index of the nearest codebook entry under squared error. -/
def quantise (lo hi : ℚ) (cb : List (List ℚ)) (v : List ℚ) : Nat :=
  match cb with
  | [] => 0
  | e :: es =>
      let t := clampVec lo hi v
      (quantiseAux t es 1 (0, sqDist t e)).1

/-- Modelled from the spec: the static read-only codebook store shared by all
quantiser invocations; never mutated after initialization. -/
structure CodecStore where
  lo : ℚ
  hi : ℚ
  codebook : List (List ℚ)

/-- One quantiser invocation against the store: it returns an index and the
store it leaves behind (unchanged, as the codebook is read-only). -/
def quantiseCall (s : CodecStore) (v : List ℚ) : Nat × CodecStore :=
  (quantise s.lo s.hi s.codebook v, s)

/-- Run a sequence of quantiser invocations, threading the store. -/
def runCalls (s : CodecStore) : List (List ℚ) → List Nat × CodecStore
  | [] => ([], s)
  | v :: vs =>
      let r := quantiseCall s v
      let rest := runCalls r.2 vs
      (r.1 :: rest.1, rest.2)

theorem runCalls_store (s : CodecStore) (vs : List (List ℚ)) :
    (runCalls s vs).2 = s := by
  induction vs with
  | nil => rfl
  | cons v vs ih => simp [runCalls, quantiseCall, ih]

theorem quantiseAux_fst_lt (t : List ℚ) :
    ∀ (es : List (List ℚ)) (i : Nat) (best : Nat × ℚ) (n : Nat),
      best.1 < n → i + es.length ≤ n → (quantiseAux t es i best).1 < n := by
  intro es
  induction es with
  | nil => intro i best n hb _; simpa [quantiseAux] using hb
  | cons e es ih =>
      intro i best n hb hi
      simp only [quantiseAux]
      apply ih
      · by_cases hd : sqDist t e < best.2
        · simp only [if_pos hd]
          simp only [List.length_cons] at hi
          omega
        · simpa [if_neg hd] using hb
      · simp only [List.length_cons] at hi
        omega

theorem quantise_lt_length (lo hi : ℚ) (cb : List (List ℚ)) (v : List ℚ)
    (hcb : cb ≠ []) : quantise lo hi cb v < cb.length := by
  cases cb with
  | nil => exact absurd rfl hcb
  | cons e es =>
      simp only [quantise, List.length_cons]
      exact quantiseAux_fst_lt _ es 1 (0, sqDist (clampVec lo hi v) e) (es.length + 1)
        (by omega) (by omega)

theorem clampQ_mem (lo hi x : ℚ) (h : lo ≤ hi) :
    lo ≤ clampQ lo hi x ∧ clampQ lo hi x ≤ hi := by
  constructor
  · exact le_max_left lo (min hi x)
  · exact max_le h (min_le_left hi x)

theorem clampQ_idem (lo hi x : ℚ) (h : lo ≤ hi) :
    clampQ lo hi (clampQ lo hi x) = clampQ lo hi x := by
  have h1 := clampQ_mem lo hi x h
  rw [show clampQ lo hi (clampQ lo hi x) = max lo (min hi (clampQ lo hi x)) from rfl,
    min_eq_right h1.2, max_eq_right h1.1]

theorem clampVec_idem (lo hi : ℚ) (v : List ℚ) (h : lo ≤ hi) :
    clampVec lo hi (clampVec lo hi v) = clampVec lo hi v := by
  simp only [clampVec, List.map_map]
  apply List.map_congr_left
  intro x _
  exact clampQ_idem lo hi x h

/-! ## LPC analysis and the LSP invariant -/

/-- Order of the short-term LPC model (number of LSP coefficients). -/
def lspOrder : Nat := 10

/-- Modelled from the spec: upper end of the valid frequency range of the
transform; LSP values must lie strictly between 0 and this bound. -/
def lspMax : ℚ := 4

/-- Modelled from the spec: the silence fallback parameter set used when the
numeric LPC analysis fails to converge — lspOrder stable LSPs evenly spaced
across the valid range, at lspMax times (i + 1) over (lspOrder + 1). -/
def fallbackLsp : List ℚ :=
  (List.range lspOrder).map (fun i => mkRat (4 * (i + 1)) 11)

/-- Strict ascending order of a coefficient list, as a boolean check. -/
def strictlyOrdered : List ℚ → Bool
  | [] => true
  | [_] => true
  | a :: b :: rest => decide (a < b) && strictlyOrdered (b :: rest)

/-- Boundedness of every LSP inside the open valid frequency range. -/
def inLspRange (ls : List ℚ) : Bool :=
  ls.all (fun x => decide (0 < x) && decide (x < lspMax))

/-- Modelled from the spec: the stability check after LPC-to-LSP conversion;
an unstable (unordered or out-of-range) candidate is replaced by the silence
fallback set, never surfaced as a crash. -/
def checkLsp (cand : List ℚ) : List ℚ :=
  if strictlyOrdered cand && inLspRange cand then cand else fallbackLsp

/-- Modelled from the spec: stand-in for the numeric LPC-to-LSP root finding
(lpc.c and lsp.c are included by the amalgamation but absent from this tree);
the spec fixes only the stability contract enforced by checkLsp, not the
numerics, so any concrete candidate computation exercises that contract. -/
def rawLsp (frame : List ℤ) : List ℚ :=
  (List.range lspOrder).map (fun i => ((frame.getD i 0 : ℚ) + (i : ℚ)) / 100)

/-- The LSP coefficients the analysis pipeline derives for a frame. -/
def lspAnalysis (frame : List ℤ) : List ℚ := checkLsp (rawLsp frame)

/-! ## Pitch estimation and rolling encoder context -/

/-- Lower bound of the plausible human-voice pitch range. -/
def pitchMin : ℚ := 50

/-- Upper bound of the plausible human-voice pitch range. -/
def pitchMax : ℚ := 400

/-- Modelled from the spec: rolling context threaded explicitly between
encoder calls — the previous frame pitch and phase, never global state. -/
structure EncCtx where
  prevPitch : ℚ
  prevPhase : ℚ

/-- Modelled from the spec: stand-in for the numeric pitch extraction of the
non-linear pitch estimator (nlp.c is included by the amalgamation but absent
from this tree). -/
def rawPitch (frame : List ℤ) : ℚ :=
  pitchMin + (((frame.map Int.natAbs).sum % 351 : Nat) : ℚ)

/-- Pitch estimate: raw estimate smoothed against the previous frame and
clamped into the plausible voice range. -/
def pitchEstimate (c : EncCtx) (frame : List ℤ) : ℚ :=
  clampQ pitchMin pitchMax ((rawPitch frame + c.prevPitch) / 2)

/-- Modelled from the spec: binary voicing decision, ties defaulting to
unvoiced (hence the strict inequality). -/
def voicingOf (frame : List ℤ) : Bool :=
  decide ((frame.map Int.natAbs).sum > frame.length)

/-! ## Modes, bit allocation, and the frame pipeline -/

/-- Bit width of the packed pitch field. -/
def pitchWidth : Nat := 7

/-- Modelled from the spec: a codec mode fixes the frame length, the
bit-allocation table and the codebook set; codebooks are static read-only
tables carried as data. -/
structure Mode where
  frameLength : Nat
  gainWidth : Nat
  fields : List (Nat × List (List ℚ))

/-- The bit-allocation table of a mode: gain, pitch, voicing flag, then one
quantized index per codebook field. -/
def bitAlloc (m : Mode) : List Nat :=
  m.gainWidth :: pitchWidth :: 1 :: m.fields.map Prod.fst

/-- Total number of bits of a packed frame in the given mode. -/
def totalBits (m : Mode) : Nat := (bitAlloc m).sum

/-- Well-formedness of a mode: every codebook is nonempty and fits its
allocated index width. -/
def Mode.wf (m : Mode) : Bool :=
  m.fields.all (fun f => decide (0 < f.2.length) && decide (f.2.length ≤ 2 ^ f.1))

/-- Pointwise validity of quantized codebook indices against the fields. -/
def reachableIdx : List (Nat × List (List ℚ)) → List Nat → Bool
  | [], [] => true
  | f :: fs, i :: is => decide (i < f.2.length) && reachableIdx fs is
  | _, _ => false

/-- A full quantized parameter tuple reachable from the codebooks: gain,
pitch and voicing fields in their allocated widths, then in-range indices. -/
def reachableTuple (m : Mode) (vals : List Nat) : Bool :=
  match vals with
  | g :: p :: v :: idxs =>
      decide (g < 2 ^ m.gainWidth) && decide (p < 2 ^ pitchWidth) &&
        decide (v < 2) && reachableIdx m.fields idxs
  | _ => false

/-- Error kinds of the codec, from the error-handling design. -/
inductive CodecError where
  | invalidFrameSize
  | codebookIndexOutOfRange
  deriving DecidableEq, Repr

/-- Modelled from the spec: scalar gain dequantization; the zero index is the
silence level, matching the requirement that an all-zero frame decodes to
silence or near-silence. -/
def gainOfIdx (i : Nat) : ℚ := (i : ℚ)

/-- Quantized gain index of a frame, capped to the allocated width. -/
def gainIndex (m : Mode) (frame : List ℤ) : Nat :=
  min (2 ^ m.gainWidth - 1) ((frame.map Int.natAbs).sum / 64)

/-- Quantized pitch index, capped to the allocated width. -/
def pitchIndex (p : ℚ) : Nat :=
  min (2 ^ pitchWidth - 1) (Int.toNat (Int.floor (p - pitchMin)))

/-- Quantized codebook index of the LSP vector for every field of a mode. -/
def quantIndices (m : Mode) (ls : List ℚ) : List Nat :=
  m.fields.map (fun f => quantise 0 lspMax f.2 ls)

/-- Phase continuation across the frame boundary, carried in the context. -/
def phaseAdvance (c : EncCtx) (p : ℚ) : ℚ := c.prevPhase + p

/-- Modelled from the spec: one analysis (encode) step — reject input whose
length differs from the configured frame length, otherwise estimate pitch,
derive stable LSPs, quantise, pack, and thread the rolling context. -/
def encodeFrame (m : Mode) (c : EncCtx) (frame : List ℤ) :
    Except CodecError (List Bool) × EncCtx :=
  if frame.length = m.frameLength then
    let p := pitchEstimate c frame
    let vals := gainIndex m frame :: pitchIndex p ::
      (cond (voicingOf frame) 1 0) :: quantIndices m (lspAnalysis frame)
    (Except.ok (pack (bitAlloc m) vals), ⟨p, phaseAdvance c p⟩)
  else (Except.error CodecError.invalidFrameSize, c)

/-- Encode a stream of frames in sequence, threading the rolling context. -/
def encodeStream (m : Mode) (c : EncCtx) :
    List (List ℤ) → List (Except CodecError (List Bool)) × EncCtx
  | [] => ([], c)
  | f :: fs =>
      let r := encodeFrame m c f
      let rest := encodeStream m r.2 fs
      (r.1 :: rest.1, rest.2)

/-- Encode a stream presented as groups of frames, threading the rolling
context across group boundaries. -/
def encodeGrouped (m : Mode) (c : EncCtx) :
    List (List (List ℤ)) → List (Except CodecError (List Bool)) × EncCtx
  | [] => ([], c)
  | g :: gs =>
      let r := encodeStream m c g
      let rest := encodeGrouped m r.2 gs
      (r.1 ++ rest.1, rest.2)

/-- Dequantize every field index back to its codebook vector. -/
def dequantFields (fs : List (Nat × List (List ℚ))) (is : List Nat) :
    List (List ℚ) :=
  List.zipWith (fun f i => f.2.getD i []) fs is

/-- Modelled from the spec: the harmonic envelope of the synthesis stage,
abstracted as a decaying combination of the decoded coefficients. -/
def synthShape (coeffs : List (List ℚ)) (j : Nat) : ℚ :=
  (coeffs.map List.sum).sum / ((j : ℚ) + 1)

/-- Modelled from the spec: synthesis produces a fixed-length sample sequence
whose amplitudes are scaled by the decoded gain. -/
def synthesize (m : Mode) (g : ℚ) (coeffs : List (List ℚ)) : List ℤ :=
  (List.range m.frameLength).map (fun j => Int.floor (g * synthShape coeffs j))

/-- Modelled from the spec: decode — unpack (signalling a decode error on a
frame of the wrong length), reject out-of-range codebook indices as a corrupt
bitstream, then dequantize and synthesize a fixed-length output frame. -/
def decode (m : Mode) (bits : List Bool) : Except CodecError (List ℤ) :=
  match unpack (bitAlloc m) bits with
  | none => Except.error CodecError.invalidFrameSize
  | some (g :: _p :: _v :: idxs) =>
      if reachableIdx m.fields idxs then
        Except.ok (synthesize m (gainOfIdx g) (dequantFields m.fields idxs))
      else Except.error CodecError.codebookIndexOutOfRange
  | some _ => Except.error CodecError.invalidFrameSize

/-- A packed frame is malformed when it does not unpack to one value per
allocated field (truncated or oversized input) or when an unpacked codebook
index is out of range. -/
def malformedFrame (m : Mode) (bits : List Bool) : Bool :=
  match unpack (bitAlloc m) bits with
  | none => true
  | some (_g :: _p :: _v :: idxs) => ! reachableIdx m.fields idxs
  | some _ => true

/-! ## Android shim (embedded from src/android/src/main/cpp/codec2_flutter.c) -/

/-- Link-time environment of the shim: the address the linker assigned to the
codec2_create symbol. -/
structure LinkEnv where
  codec2_create_addr : Nat

/-- Embedding of _codec2_flutter_keep_symbols: it returns the address of
codec2_create cast to a void pointer (the cast preserves the address). -/
def codec2_flutter_keep_symbols (e : LinkEnv) : Nat := e.codec2_create_addr

/-- One call of the shim at a given call number; the body does not depend on
the call number, mirroring the stateless C function. -/
def keepSymbolsCall (e : LinkEnv) (_callNo : Nat) : Nat :=
  codec2_flutter_keep_symbols e

/-! ## Concrete mode and context used by the witnesses -/

/-- A small concrete well-formed mode: frame length 2, a 2-bit gain field and
one codebook field of width 2 with three entries. -/
def m0 : Mode :=
  ⟨2, 2, [(2, [[0, 1], [2, 3], [1, 2]])]⟩

/-- A concrete rolling encoder context. -/
def c0 : EncCtx := ⟨100, 0⟩

/-! ## Claim theorems -/

theorem reachable_valid (fs : List (Nat × List (List ℚ))) :
    ∀ is : List Nat,
      fs.all (fun f => decide (0 < f.2.length) && decide (f.2.length ≤ 2 ^ f.1)) = true →
      reachableIdx fs is = true → validParams (fs.map Prod.fst) is = true := by
  induction fs with
  | nil =>
      intro is _ hr
      cases is with
      | nil => rfl
      | cons i is => simp [reachableIdx] at hr
  | cons f fs ih =>
      intro is hwf hr
      cases is with
      | nil => simp [reachableIdx] at hr
      | cons i is =>
          simp only [List.all_cons, Bool.and_eq_true, decide_eq_true_eq] at hwf
          simp only [reachableIdx, Bool.and_eq_true, decide_eq_true_eq] at hr
          simp only [List.map_cons, validParams, Bool.and_eq_true, decide_eq_true_eq]
          exact ⟨by omega, ih is hwf.2 hr.2⟩

/-- Claim C1: for every valid quantized parameter tuple reachable from the
codebooks of a well-formed mode, unpacking the result of packing the tuple
yields exactly the tuple. -/
theorem unpack_pack_reachable (m : Mode) (vals : List Nat)
    (h1 : m.wf = true) (h2 : reachableTuple m vals = true) :
    unpack (bitAlloc m) (pack (bitAlloc m) vals) = some vals := by
  apply unpack_pack
  rcases vals with _ | ⟨g, vals⟩
  · simp [reachableTuple] at h2
  rcases vals with _ | ⟨p, vals⟩
  · simp [reachableTuple] at h2
  rcases vals with _ | ⟨v, vals⟩
  · simp [reachableTuple] at h2
  simp only [reachableTuple, Bool.and_eq_true, decide_eq_true_eq] at h2
  obtain ⟨⟨⟨hg, hp⟩, hv⟩, hidx⟩ := h2
  simp only [bitAlloc, validParams, Bool.and_eq_true, decide_eq_true_eq]
  exact ⟨hg, hp, by omega, reachable_valid m.fields vals h1 hidx⟩

/-- Witness for claim C1 at a concrete mode and tuple. -/
theorem unpack_pack_reachable_w :
    m0.wf = true ∧ reachableTuple m0 [1, 5, 1, 2] = true ∧
      unpack (bitAlloc m0) (pack (bitAlloc m0) [1, 5, 1, 2]) = some [1, 5, 1, 2] :=
  ⟨by decide, by decide, unpack_pack_reachable m0 [1, 5, 1, 2] (by decide) (by decide)⟩

/-- Claim C2: the quantiser is deterministic — an invocation on a vector
after any sequence of intervening invocations returns the same index as the
invocation on that vector against the initial store, and no invocation
mutates the codebook store. -/
theorem quantiser_deterministic (s : CodecStore) (calls : List (List ℚ))
    (v : List ℚ) :
    (quantiseCall (runCalls s calls).2 v).1 = (quantiseCall s v).1 ∧
      (runCalls s calls).2 = s := by
  rw [runCalls_store s calls]
  exact ⟨rfl, rfl⟩

/-- Claim C3: the analysis (encode) pipeline rejects every input whose length
differs from the configured frame length with an invalid-frame-size error,
leaving the rolling context untouched. -/
theorem encode_rejects_frame_size (m : Mode) (c : EncCtx) (frame : List ℤ)
    (h : frame.length ≠ m.frameLength) :
    encodeFrame m c frame = (Except.error CodecError.invalidFrameSize, c) := by
  simp [encodeFrame, h]

/-- Witness for claim C3 at a concrete short frame. -/
theorem encode_rejects_frame_size_w :
    ([0] : List ℤ).length ≠ m0.frameLength ∧
      encodeFrame m0 c0 [0] = (Except.error CodecError.invalidFrameSize, c0) :=
  ⟨by decide, encode_rejects_frame_size m0 c0 [0] (by decide)⟩

/-- Claim C6: on any input vector, in range or not, the quantiser clamps the
coefficients into range and returns a valid codebook index — it agrees with
its own result on the clamped vector and never fails. -/
theorem quantise_clamps (lo hi : ℚ) (cb : List (List ℚ)) (v : List ℚ)
    (h : lo ≤ hi) (hcb : cb ≠ []) :
    quantise lo hi cb v < cb.length ∧
      quantise lo hi cb v = quantise lo hi cb (clampVec lo hi v) ∧
      ∀ x ∈ clampVec lo hi v, lo ≤ x ∧ x ≤ hi := by
  refine ⟨quantise_lt_length lo hi cb v hcb, ?_, ?_⟩
  · cases cb with
    | nil => rfl
    | cons e es =>
        simp only [quantise]
        rw [clampVec_idem lo hi v h]
  · intro x hx
    simp only [clampVec, List.mem_map] at hx
    obtain ⟨y, _, rfl⟩ := hx
    exact clampQ_mem lo hi y h

/-- Witness for claim C6 at a concrete out-of-range input. -/
theorem quantise_clamps_w :
    (0 : ℚ) ≤ 4 ∧ ([[0], [2]] : List (List ℚ)) ≠ [] ∧
      (quantise 0 4 [[0], [2]] [9] < ([[0], [2]] : List (List ℚ)).length ∧
        quantise 0 4 [[0], [2]] [9] = quantise 0 4 [[0], [2]] (clampVec 0 4 [9]) ∧
        ∀ x ∈ clampVec 0 4 ([9] : List ℚ), (0 : ℚ) ≤ x ∧ x ≤ 4) :=
  ⟨by norm_num, by simp, quantise_clamps 0 4 [[0], [2]] [9] (by norm_num) (by simp)⟩

theorem checkLsp_invariant (cand : List ℚ) :
    strictlyOrdered (checkLsp cand) = true ∧
      ∀ x ∈ checkLsp cand, 0 < x ∧ x < lspMax := by
  unfold checkLsp
  by_cases h : (strictlyOrdered cand && inLspRange cand) = true
  · rw [if_pos h]
    simp only [Bool.and_eq_true] at h
    refine ⟨h.1, ?_⟩
    intro x hx
    have hall := h.2
    simp only [inLspRange, List.all_eq_true, Bool.and_eq_true, decide_eq_true_eq] at hall
    exact hall x hx
  · rw [if_neg h]
    exact ⟨by decide, by decide⟩

/-- Claim C4: the LSP coefficients the LPC analysis derives for any frame are
strictly increasing and lie inside the valid frequency range of the
transform; an unstable candidate is replaced by the fallback set, so the
invariant holds for every parameter tuple the pipeline produces. -/
theorem lsp_invariant (frame : List ℤ) :
    strictlyOrdered (lspAnalysis frame) = true ∧
      ∀ x ∈ lspAnalysis frame, 0 < x ∧ x < lspMax :=
  checkLsp_invariant (rawLsp frame)

theorem synthesize_length (m : Mode) (g : ℚ) (coeffs : List (List ℚ)) :
    (synthesize m g coeffs).length = m.frameLength := by
  simp [synthesize]

theorem synthesize_zero (m : Mode) (coeffs : List (List ℚ)) :
    synthesize m 0 coeffs = List.replicate m.frameLength 0 := by
  apply List.eq_replicate_iff.2
  refine ⟨synthesize_length m 0 coeffs, ?_⟩
  intro b hb
  simp only [synthesize, List.mem_map] at hb
  obtain ⟨j, _, rfl⟩ := hb
  simp

theorem fieldVal_replicate_false (w : Nat) :
    fieldVal (List.replicate w false) = 0 := by
  induction w with
  | zero => rfl
  | succ w ih => simp [List.replicate_succ, fieldVal, ih]

theorem unpack_zero (ws : List Nat) :
    unpack ws (List.replicate ws.sum false) = some (List.replicate ws.length 0) := by
  induction ws with
  | nil => rfl
  | cons w ws ih =>
      have hsplit : List.replicate (w + ws.sum) (false : Bool) =
          List.replicate w false ++ List.replicate ws.sum false :=
        List.replicate_add w ws.sum false
      have htake : (List.replicate w (false : Bool) ++ List.replicate ws.sum false).take w =
          List.replicate w false := List.take_left' (by simp)
      have hdrop : (List.replicate w (false : Bool) ++ List.replicate ws.sum false).drop w =
          List.replicate ws.sum false := List.drop_left' (by simp)
      simp only [List.sum_cons, unpack, hsplit, htake, hdrop, List.length_append,
        List.length_replicate, Nat.le_add_right, if_pos, ih, fieldVal_replicate_false,
        List.length_cons, List.replicate_succ]

theorem reachable_zero (fs : List (Nat × List (List ℚ)))
    (h : fs.all (fun f => decide (0 < f.2.length) && decide (f.2.length ≤ 2 ^ f.1)) = true) :
    reachableIdx fs (List.replicate fs.length 0) = true := by
  induction fs with
  | nil => rfl
  | cons f fs ih =>
      simp only [List.all_cons, Bool.and_eq_true, decide_eq_true_eq] at h
      simp only [List.length_cons, List.replicate_succ, reachableIdx, Bool.and_eq_true,
        decide_eq_true_eq]
      exact ⟨h.1.1, ih h.2⟩

theorem decode_all_zero (m : Mode) (h : m.wf = true) :
    decode m (List.replicate (totalBits m) false) =
      Except.ok (List.replicate m.frameLength 0) := by
  have hlen : (bitAlloc m).length = m.fields.length + 3 := by simp [bitAlloc]
  unfold decode totalBits
  rw [unpack_zero (bitAlloc m), hlen]
  simp only [List.replicate_succ]
  rw [show reachableIdx m.fields (List.replicate m.fields.length 0) = true from
    reachable_zero m.fields h]
  simp only [if_true, gainOfIdx, Nat.cast_zero, synthesize_zero]

/-- Claim C7: decoding the all-zero packed frame of a well-formed mode never
returns an error and yields exact silence of the configured frame length. -/
theorem decode_zero_frame (m : Mode) (h : m.wf = true) :
    decode m (List.replicate (totalBits m) false) =
      Except.ok (List.replicate m.frameLength 0) :=
  decode_all_zero m h

/-- Witness for claim C7 at the concrete mode. -/
theorem decode_zero_frame_w :
    m0.wf = true ∧
      decode m0 (List.replicate (totalBits m0) false) =
        Except.ok (List.replicate m0.frameLength 0) :=
  ⟨by decide, decode_zero_frame m0 (by decide)⟩

/-- Claim C5: a packed frame that is truncated (or otherwise of the wrong
length) is malformed; decoding any malformed frame signals a decode error;
and every successful decode fills exactly the destination sample buffer,
never writing beyond it. -/
theorem decode_malformed_safe (m : Mode) (bits : List Bool) :
    (bits.length ≠ totalBits m → malformedFrame m bits = true) ∧
      (malformedFrame m bits = true → ∃ e, decode m bits = Except.error e) ∧
      (∀ out, decode m bits = Except.ok out → out.length = m.frameLength) := by
  refine ⟨?_, ?_, ?_⟩
  · intro hlen
    unfold malformedFrame
    cases hu : unpack (bitAlloc m) bits with
    | none => rfl
    | some vs =>
        exact absurd (unpack_some_length (bitAlloc m) bits vs hu) hlen
  · intro hm
    unfold malformedFrame at hm
    unfold decode
    cases hu : unpack (bitAlloc m) bits with
    | none => exact ⟨CodecError.invalidFrameSize, rfl⟩
    | some vs =>
        rw [hu] at hm
        rcases vs with _ | ⟨g, _ | ⟨p, _ | ⟨v, idxs⟩⟩⟩
        · exact ⟨CodecError.invalidFrameSize, rfl⟩
        · exact ⟨CodecError.invalidFrameSize, rfl⟩
        · exact ⟨CodecError.invalidFrameSize, rfl⟩
        · have hr : reachableIdx m.fields idxs = false := by
            simpa using hm
          exact ⟨CodecError.codebookIndexOutOfRange, by simp [hr]⟩
  · intro out hout
    unfold decode at hout
    cases hu : unpack (bitAlloc m) bits with
    | none => rw [hu] at hout; exact absurd hout (by simp)
    | some vs =>
        rw [hu] at hout
        rcases vs with _ | ⟨g, _ | ⟨p, _ | ⟨v, idxs⟩⟩⟩
        · exact absurd hout (by simp)
        · exact absurd hout (by simp)
        · exact absurd hout (by simp)
        · by_cases hr : reachableIdx m.fields idxs = true
          · have h2 : synthesize m (gainOfIdx g) (dequantFields m.fields idxs) = out := by
              simpa [hr] using hout
            rw [← h2]
            exact synthesize_length m _ _
          · simp [hr] at hout

/-- Witness for claim C5: a truncated frame is malformed and decodes to an
error, and a successful decode has exactly the frame length. -/
theorem decode_malformed_safe_w :
    (([] : List Bool).length ≠ totalBits m0 ∧ malformedFrame m0 [] = true ∧
        ∃ e, decode m0 [] = Except.error e) ∧
      (decode m0 (List.replicate (totalBits m0) false) =
          Except.ok (List.replicate m0.frameLength 0) ∧
        (List.replicate m0.frameLength (0 : ℤ)).length = m0.frameLength) :=
  ⟨⟨by decide, (decode_malformed_safe m0 []).1 (by decide),
      (decode_malformed_safe m0 []).2.1 ((decode_malformed_safe m0 []).1 (by decide))⟩,
    ⟨decode_all_zero m0 (by decide),
      (decode_malformed_safe m0 (List.replicate (totalBits m0) false)).2.2
        (List.replicate m0.frameLength 0) (decode_all_zero m0 (by decide))⟩⟩

theorem encodeStream_append (m : Mode) (xs ys : List (List ℤ)) :
    ∀ c, encodeStream m c (xs ++ ys) =
      ((encodeStream m c xs).1 ++ (encodeStream m (encodeStream m c xs).2 ys).1,
        (encodeStream m (encodeStream m c xs).2 ys).2) := by
  induction xs with
  | nil => intro c; rfl
  | cons f fs ih =>
      intro c
      simp [encodeStream, ih]

theorem grouped_eq_stream (m : Mode) (gs : List (List (List ℤ))) :
    ∀ c, encodeGrouped m c gs = encodeStream m c gs.flatten := by
  induction gs with
  | nil => intro c; rfl
  | cons g gs ih =>
      intro c
      simp [encodeGrouped, List.flatten_cons, encodeStream_append, ih]

/-- Claim C8: encoding a stream under any grouping of frames equals encoding
it unsplit, and any two groupings with the same flattened frame sequence
yield identical packed output and final context. -/
theorem encode_grouping_independent (m : Mode) (c : EncCtx)
    (gs1 gs2 : List (List (List ℤ))) (h : gs1.flatten = gs2.flatten) :
    encodeGrouped m c gs1 = encodeStream m c gs1.flatten ∧
      encodeGrouped m c gs1 = encodeGrouped m c gs2 := by
  refine ⟨grouped_eq_stream m gs1 c, ?_⟩
  rw [grouped_eq_stream m gs1 c, grouped_eq_stream m gs2 c, h]

/-- Witness for claim C8 at two concrete aligned groupings. -/
theorem encode_grouping_independent_w :
    ([[[(0 : ℤ), 0]], [[1, 1]]] : List (List (List ℤ))).flatten =
        ([[[(0 : ℤ), 0]], [], [[1, 1]]] : List (List (List ℤ))).flatten ∧
      (encodeGrouped m0 c0 [[[(0 : ℤ), 0]], [[1, 1]]] =
          encodeStream m0 c0 ([[[(0 : ℤ), 0]], [[1, 1]]] : List (List (List ℤ))).flatten ∧
        encodeGrouped m0 c0 [[[(0 : ℤ), 0]], [[1, 1]]] =
          encodeGrouped m0 c0 [[[(0 : ℤ), 0]], [], [[1, 1]]]) :=
  ⟨rfl, encode_grouping_independent m0 c0 _ _ rfl⟩

/-- Claim C9: every call of the keep-symbols shim returns the address of
codec2_create (cast to a pointer), hence the same non-null value on every
call. -/
theorem keep_symbols_spec (e : LinkEnv) (n k : Nat)
    (h : e.codec2_create_addr ≠ 0) :
    keepSymbolsCall e n = e.codec2_create_addr ∧ keepSymbolsCall e n ≠ 0 ∧
      keepSymbolsCall e n = keepSymbolsCall e k :=
  ⟨rfl, h, rfl⟩

/-- Witness for claim C9 at a concrete link environment. -/
theorem keep_symbols_spec_w :
    (LinkEnv.mk 1).codec2_create_addr ≠ 0 ∧
      (keepSymbolsCall (LinkEnv.mk 1) 0 = (LinkEnv.mk 1).codec2_create_addr ∧
        keepSymbolsCall (LinkEnv.mk 1) 0 ≠ 0 ∧
        keepSymbolsCall (LinkEnv.mk 1) 0 = keepSymbolsCall (LinkEnv.mk 1) 1) :=
  ⟨by decide, keep_symbols_spec (LinkEnv.mk 1) 0 1 (by decide)⟩

end Codec2
